import Mathlib

/-!
Verification of the dashcam segment-stitching program (`dashcam_stitcher.py`)
against its specification.

The program's path handling is POSIX-style: paths are strings, components are
joined with a forward slash.  We embed the string operations the program uses
(`os.path.join`, `os.path.abspath`, `os.path.basename`, `os.path.dirname`,
`str.endswith`, `str.startswith`, `str.split`, substring tests) as executable
functions over `String.data` (lists of characters).  `os.path.abspath` is
modelled without `..`/`.` normalisation, which the program never relies on.
Machine-specific quirks (Windows drive letters, duplicated separators beyond
a root `/`) are outside the model.
-/

namespace Stitcher

/-- The single-quote character `Char.ofNat 39`, used by the concat-list syntax. -/
def squoteChar : Char := Char.ofNat 39

/-- The backslash character `Char.ofNat 92`. -/
def bslashChar : Char := Char.ofNat 92

/-- A string is absolute when it starts with a forward slash (POSIX model). -/
def isAbs (s : String) : Bool :=
  match s.data with
  | [] => false
  | c :: _ => c == '/'

/-- Whether a string's last character is a forward slash. -/
def endsWithSlash (s : String) : Bool :=
  s.data.getLast? == some '/'

/-- Whether a string contains a forward slash; on POSIX, `os.path.dirname s`
is nonempty exactly when this holds. -/
def hasSlash (s : String) : Bool :=
  s.data.contains '/'

/-- Embedding of POSIX `os.path.join` for the two-argument uses in the program:
an absolute second argument wins, otherwise the parts are joined with `/`. -/
def pjoin (d f : String) : String :=
  if isAbs f then f
  else if endsWithSlash d then d ++ f
  else d ++ "/" ++ f

/-- Embedding of `os.path.abspath` relative to a current working directory
`cwd`, without dot-segment normalisation. -/
def abspath (cwd p : String) : String :=
  if isAbs p then p else pjoin cwd p

/-- Embedding of POSIX `os.path.basename`: the part after the last slash. -/
def basename (p : String) : String :=
  ⟨(p.data.reverse.takeWhile (fun c => !(c == '/'))).reverse⟩

/-- Embedding of POSIX `os.path.dirname`: the part before the last slash
(`""` when there is no slash, `"/"` when the only slash is leading). -/
def dirname (p : String) : String :=
  if p.data.contains '/' then
    let pre := ((p.data.reverse.dropWhile (fun c => !(c == '/'))).drop 1).reverse
    if pre.isEmpty then "/" else ⟨pre⟩
  else ""

/-- Lexicographic strict comparison of character lists by code point: the
comparison Python uses on `str`.  (We avoid `String.lt`, whose decision
procedure is not kernel-executable.) -/
def lexLt : List Char → List Char → Bool
  | [], [] => false
  | [], _ :: _ => true
  | _ :: _, [] => false
  | a :: as, b :: bs => if a == b then lexLt as bs else decide (a < b)

/-- Python's `s < t` on strings. -/
def strLt (s t : String) : Bool := lexLt s.data t.data

/-- Python's `s <= t` on strings. -/
def strLe (s t : String) : Bool := !(strLt t s)

/-- Python's `sub in s` substring test, on character lists. -/
def containsSub (sub : List Char) : List Char → Bool
  | [] => sub.isEmpty
  | c :: cs => sub.isPrefixOf (c :: cs) || containsSub sub cs

/-- Python's `s.split(sep)` on character lists: splits at every occurrence of
`sep`, keeping empty parts, and always returns at least one part. -/
def splitChar (sep : Char) : List Char → List (List Char)
  | [] => [[]]
  | c :: cs =>
    if c == sep then [] :: splitChar sep cs
    else
      match splitChar sep cs with
      | [] => [[c]]
      | p :: ps => (c :: p) :: ps

/-! ### Filesystem model and data model

A directory listing is a list of entries; a regular file is `FSEntry.file`,
a subdirectory carries its own listing.  The order of a listing models the
(arbitrary) iteration order of `os.listdir`. -/

/-- One directory entry: a regular file or a subdirectory with its listing. -/
inductive FSEntry where
  | file (name : String)
  | dir (name : String) (entries : List FSEntry)

/-- The name of an entry. -/
def FSEntry.name : FSEntry → String
  | .file n => n
  | .dir n _ => n

/-- Provenance of a segment: driving footage or parking footage. -/
inductive Prov where
  | driving
  | parking
deriving DecidableEq, Repr

/-- A discovered candidate video file (the `(video_type, video_path)` pairs
built by `find_video_files`). -/
structure Seg where
  prov : Prov
  path : String
deriving DecidableEq, Repr

/-- Look up a subdirectory of the given name in a listing, modelling
`os.path.exists(p) and os.path.isdir(p)` followed by `os.listdir(p)`;
a regular file of that name does not count. -/
def findSubdir (n : String) : List FSEntry → Option (List FSEntry)
  | [] => none
  | .dir m es :: rest => if m == n then some es else findSubdir n rest
  | .file _ :: rest => findSubdir n rest

/-! ### Segment Scanner (`find_video_files`, `detect_dcim_structure`) -/

/-- The tuple of recognised extensions from line 19 of the source
(`video_extensions`), tested with `str.endswith`. -/
def video_extensions : List String :=
  [".mp4", ".avi", ".mov", ".mkv", ".MP4", ".AVI", ".MOV", ".MKV"]

/-- `file.endswith(video_extensions)`. -/
def isVideoFile (n : String) : Bool :=
  video_extensions.any fun e => e.data.isSuffixOf n.data

/-- `file.startswith('.') or file.startswith('._')`. -/
def isHidden (n : String) : Bool :=
  ['.'].isPrefixOf n.data || ['.', '_'].isPrefixOf n.data

/-- One iteration of the scan loop: skip hidden names and directories, keep
video files, attaching the given provenance and the joined path. -/
def scanEntry (dirPath : String) (prov : Prov) (e : FSEntry) : Option Seg :=
  match e with
  | .file n => if isHidden n then none
               else if isVideoFile n then some ⟨prov, pjoin dirPath n⟩ else none
  | .dir _ _ => none

/-- Scan one directory listing (the body of either `for file in os.listdir(...)`
loop of `find_video_files`). -/
def scanDir (dirPath : String) (prov : Prov) (es : List FSEntry) : List Seg :=
  es.filterMap (scanEntry dirPath prov)

/-- `detect_dcim_structure`: redirect into `<root>/Movie` when it exists and
is a directory, else keep the root. -/
def effectiveRoot (rootPath : String) (entries : List FSEntry) :
    String × List FSEntry :=
  match findSubdir "Movie" entries with
  | some es => (pjoin rootPath "Movie", es)
  | none => (rootPath, entries)

/-- The parking half of the scan: the `Parking` subfolder of the effective
root, when present. -/
def parkingSegs (effPath : String) (effEntries : List FSEntry) : List Seg :=
  match findSubdir "Parking" effEntries with
  | some es => scanDir (pjoin effPath "Parking") .parking es
  | none => []

/-- All segments in emission order: driving footage from the effective root,
then parking footage from its `Parking` subfolder. -/
def scanSegments (effPath : String) (effEntries : List FSEntry) : List Seg :=
  scanDir effPath .driving effEntries ++ parkingSegs effPath effEntries

/-- The sort key of line 59: `os.path.basename(x[1])`. -/
def bn (s : Seg) : String := basename s.path

/-- The comparison `video_files.sort(key=...)` sorts by: base names
non-decreasing (Python's `<=` on the key strings). -/
def bnLe (a b : Seg) : Prop := strLe (bn a) (bn b) = true

instance : DecidableRel bnLe := fun a b =>
  inferInstanceAs (Decidable (strLe (bn a) (bn b) = true))

/-- The Segment Orderer, line 59:
`video_files.sort(key=lambda x: os.path.basename(x[1]))`.  Python's
`list.sort` is a stable key sort, and a stable key sort is uniquely
determined by the key order and the input order, so stable insertion sort
is an exact model of it. -/
def sortSegs (l : List Seg) : List Seg := List.insertionSort bnLe l

/-- `find_video_files`: DCIM redirect, scan driving then parking, then the
stable sort by base name. -/
def find_video_files (rootPath : String) (entries : List FSEntry) : List Seg :=
  let er := effectiveRoot rootPath entries
  sortSegs (scanSegments er.1 er.2)

/-! ### Orderings used to state the ordering claims -/

/-- Rank of a provenance in emission order: all driving segments are emitted
before all parking segments. -/
def rank : Prov → Nat
  | .driving => 0
  | .parking => 1

/-- Order by base name, ties by provenance rank (driving before parking):
the order the program actually produces. -/
def key2Le (a b : Seg) : Prop :=
  strLt (bn a) (bn b) = true ∨ (bn a = bn b ∧ rank a.prov ≤ rank b.prov)

/-- Order by base name, ties by full path string: the order the specification
claims. -/
def specLe (a b : Seg) : Prop :=
  strLt (bn a) (bn b) = true ∨ (bn a = bn b ∧ strLe a.path b.path = true)

/-- Order by base name, then provenance rank, then full path: a total order
refining `key2Le` used to show the produced order is unique. -/
def key3Le (a b : Seg) : Prop :=
  strLt (bn a) (bn b) = true ∨
    (bn a = bn b ∧ (rank a.prov < rank b.prov ∨
      (rank a.prov = rank b.prov ∧ strLe a.path b.path = true)))

/-- The pair (base name, provenance rank); these keys are distinct in any real
scan because names inside one directory listing are unique. -/
def key2 (s : Seg) : String × Nat := (bn s, rank s.prov)

/-! ### Manifest Builder (`create_concat_file`) -/

/-- `video_path.replace('\\', '/')`. -/
def normSlashes (s : String) : String :=
  ⟨s.data.map fun c => if c == bslashChar then '/' else c⟩

/-- A single-quote as a one-character string. -/
def sq : String := ⟨[squoteChar]⟩

/-- One manifest line: `f.write(f"file '{video_path}'\n")` after
`os.path.abspath` and backslash normalisation (the trailing newline is the
line separator and not part of the line). -/
def concat_line (cwd : String) (s : Seg) : String :=
  "file " ++ sq ++ normSlashes (abspath cwd s.path) ++ sq

/-- The manifest contents as a list of lines, one per segment in order. -/
def create_concat_file (cwd : String) (l : List Seg) : List String :=
  l.map (concat_line cwd)

/-! ### Output Path Resolver (`stitch_videos` lines 84, 91-95, 121-135) -/

/-- The output path resolution of `stitch_videos`: returns the resolved
absolute output path and whether the "Ignoring destination folder" warning
is printed.  Mirrors the truthiness tests of the Python code: an empty
output name or destination string counts as absent. -/
def resolve_output (cwd directory0 : String) (output_file : Option String)
    (dest0 : Option String) : String × Bool :=
  let directory := abspath cwd directory0
  let dest : Option String :=
    match dest0 with
    | none => none
    | some d => if d == "" then none else some (abspath cwd d)
  let f : String :=
    match output_file with
    | none => "stitched_output.mp4"
    | some s => if s == "" then "stitched_output.mp4" else s
  if hasSlash f then
    (abspath cwd f, dest.isSome)
  else
    match dest with
    | some d => (abspath cwd (pjoin d f), false)
    | none => (abspath cwd (pjoin directory f), false)

/-! ### Concat Runner line classification (`stitch_videos` lines 159-172) -/

/-- The `Opening '` marker searched for in each diagnostic line. -/
def openingMarker : List Char := "Opening ".data ++ [squoteChar]

/-- The extension substrings of line 164. -/
def extMarkers : List String :=
  [".mp4", ".MP4", ".avi", ".AVI", ".mov", ".MOV", ".mkv", ".MKV"]

/-- `"Opening '" in line and any(ext in line for ext in [...])`. -/
def isOpeningLine (line : String) : Bool :=
  containsSub openingMarker line.data &&
    extMarkers.any fun e => containsSub e.data line.data

/-- `line.split("'")[1].split('/')[-1].split('\\')[-1]`. -/
def extractFilename (line : String) : String :=
  ⟨(splitChar bslashChar
      ((splitChar '/' ((splitChar squoteChar line.data).getD 1 [])).getLastD [])).getLastD []⟩

/-- `'PARKING' if 'PF.' in filename else 'DRIVING'` (line 168). -/
def displayedLabel (filename : String) : String :=
  if containsSub "PF.".data filename.data then "PARKING" else "DRIVING"

/-- `'warning' in line.lower() or 'error' in line.lower()`. -/
def isWarnErrLine (line : String) : Bool :=
  containsSub "warning".data (line.data.map Char.toLower) ||
    containsSub "error".data (line.data.map Char.toLower)

/-- What the runner surfaces for one diagnostic line. -/
inductive Event where
  | progress (n total : Nat) (label : String) (filename : String)
  | warnErr (text : String)
  | silent
deriving DecidableEq, Repr

/-- Classification of one diagnostic line given the current per-file counter:
returns the new counter and the surfaced event (the body of the
`for line in process.stderr` loop). -/
def processLine (total count : Nat) (line : String) : Nat × Event :=
  if isOpeningLine line then
    (count + 1,
     .progress (count + 1) total (displayedLabel (extractFilename line))
       (extractFilename line))
  else if isWarnErrLine line then (count, .warnErr line)
  else (count, .silent)

/-- The uppercase provenance label used when listing segments
(`video_type.upper()`): the Segment's recorded provenance. -/
def provLabel : Prov → String
  | .driving => "DRIVING"
  | .parking => "PARKING"

/-- The shape of the muxer diagnostic line reporting that input `path` is
being opened, as emitted by the external muxer
(`[concat @ ...] Opening '<path>' for reading`). -/
def mkOpeningLine (path : String) : String :=
  "[concat @ 0] " ++ ⟨openingMarker⟩ ++ path ++ sq ++ " for reading"

/-! ### `stitch_videos` control flow (manifest lifecycle, lines 82-202) -/

/-- Outcome of writing the manifest: either it succeeds, or an I/O error is
raised after the file has been created (e.g. disk full mid-write).  The
write happens at line 119, before the `try` block. -/
inductive WriteOutcome where
  | ok
  | raiseAfterCreate
deriving DecidableEq, Repr

/-- Outcome of launching the external muxer inside the `try` block:
`FileNotFoundError` (binary missing), any other exception, or a process
that runs to completion with an exit code. -/
inductive LaunchResult where
  | raiseFileNotFound
  | raiseOther
  | exits (code : Int)
deriving DecidableEq, Repr

/-- Environment facts outside the program's control: working directory,
manifest write outcome, muxer launch outcome, and whether `os.remove` on
the manifest fails. -/
structure StitchEnv where
  cwd : String
  manifestWrite : WriteOutcome
  launch : LaunchResult
  removeFails : Bool
deriving DecidableEq, Repr

/-- Observable outcome of one `stitch_videos` run: the returned value
(`none` when an exception propagates out of the function), whether the
manifest file was created, whether it was deleted by the end of the run,
its path, the resolved output path, and whether the destination-ignored
warning fired. -/
structure StitchResult where
  returned : Option Bool
  manifestCreated : Bool
  manifestDeleted : Bool
  manifestPath : String
  outputPath : String
  warnedDestIgnored : Bool
deriving DecidableEq, Repr

/-- Control-flow embedding of `stitch_videos`: scan (line 98), empty-scan
failure (line 100), manifest creation at the directory of the first sorted
segment (lines 116-119, outside the `try`), output resolution (lines
121-135), then the `try` block: launch, `os.remove` of the manifest after
`process.wait()` (lines 176-180, skipped when an exception is caught at
lines 196-202), and the final verdict from the exit code.  The source-root
existence check of line 86 is not modelled: supplying `entries` presumes
the directory exists. -/
def stitch_videos (env : StitchEnv) (directory0 : String)
    (entries : List FSEntry) (output_file : Option String)
    (dest0 : Option String) : StitchResult :=
  let directory := abspath env.cwd directory0
  let segs := find_video_files directory entries
  match segs with
  | [] =>
    { returned := some false, manifestCreated := false, manifestDeleted := false,
      manifestPath := "", outputPath := "", warnedDestIgnored := false }
  | s0 :: _ =>
    let concatPath := pjoin (dirname s0.path) "concat_list.txt"
    match env.manifestWrite with
    | .raiseAfterCreate =>
      { returned := none, manifestCreated := true, manifestDeleted := false,
        manifestPath := concatPath, outputPath := "", warnedDestIgnored := false }
    | .ok =>
      let r := resolve_output env.cwd directory0 output_file dest0
      match env.launch with
      | .raiseFileNotFound =>
        { returned := some false, manifestCreated := true, manifestDeleted := false,
          manifestPath := concatPath, outputPath := r.1, warnedDestIgnored := r.2 }
      | .raiseOther =>
        { returned := some false, manifestCreated := true, manifestDeleted := false,
          manifestPath := concatPath, outputPath := r.1, warnedDestIgnored := r.2 }
      | .exits code =>
        { returned := some (code == 0), manifestCreated := true,
          manifestDeleted := !env.removeFails,
          manifestPath := concatPath, outputPath := r.1, warnedDestIgnored := r.2 }

/-! ### CLI argument parsing (`__main__`, lines 218-226) -/

/-- The argument loop over `sys.argv[2:]`: `--dest` followed by a value sets
the destination; any other argument (including a trailing `--dest` with
nothing after it) becomes the positional output file, later ones
overwriting earlier ones. -/
def parseLoop (out dest : Option String) : List String → Option String × Option String
  | [] => (out, dest)
  | [a] => (some a, dest)
  | a :: v :: rest2 =>
    if a == "--dest" then parseLoop out (some v) rest2
    else parseLoop (some a) dest (v :: rest2)

/-- Parse the arguments after the source directory. -/
def parseArgs (argv : List String) : Option String × Option String :=
  parseLoop none none argv

/-! ### Predicates used in claim statements -/

/-- A well-formed directory-entry name: nonempty and without a slash, as
`os.listdir` guarantees. -/
def goodName (n : String) : Bool :=
  !n.data.isEmpty && !n.data.contains '/'

/-- Every name in a listing, and in its immediate sub-listings, is
well-formed. -/
def namesOk2 (es : List FSEntry) : Bool :=
  es.all fun e =>
    goodName e.name &&
      (match e with
       | .dir _ ds => ds.all fun d => goodName d.name
       | .file _ => true)

/-- The four extensions of the specification's invariant, lower-case. -/
def specExts : List String := [".mp4", ".avi", ".mov", ".mkv"]

/-- The specification's case-insensitive extension invariant for a file
name: lower-casing the name yields one of the four extensions as suffix. -/
def hasCIExt (n : String) : Prop :=
  ∃ e ∈ specExts, e.data.isSuffixOf (n.data.map Char.toLower) = true

/-! ## Helper lemmas: the lexicographic order -/

theorem lexLt_irrefl : ∀ l : List Char, lexLt l l = false
  | [] => rfl
  | c :: cs => by simp [lexLt, lexLt_irrefl cs]

theorem lexLt_trans : ∀ {a b c : List Char},
    lexLt a b = true → lexLt b c = true → lexLt a c = true
  | [], [], _, h, _ => by simp [lexLt] at h
  | [], _ :: _, [], _, h2 => by simp [lexLt] at h2
  | [], _ :: _, _ :: _, _, _ => by simp [lexLt]
  | _ :: _, [], _, h1, _ => by simp [lexLt] at h1
  | _ :: _, _ :: _, [], _, h2 => by simp [lexLt] at h2
  | a :: as, b :: bs, c :: cs, h1, h2 => by
    simp only [lexLt] at h1 h2 ⊢
    by_cases hab : a = b
    · subst hab
      simp only [beq_self_eq_true, if_true] at h1
      by_cases hac : a = c
      · subst hac
        simp only [beq_self_eq_true, if_true] at h2 ⊢
        exact lexLt_trans h1 h2
      · simp [beq_eq_false_iff_ne.mpr hac] at h2 ⊢
        exact h2
    · simp [beq_eq_false_iff_ne.mpr hab] at h1
      by_cases hbc : b = c
      · subst hbc
        simp [beq_eq_false_iff_ne.mpr hab]
        exact h1
      · simp [beq_eq_false_iff_ne.mpr hbc] at h2
        have hac : a < c := lt_trans h1 h2
        simp [beq_eq_false_iff_ne.mpr (ne_of_lt hac)]
        exact hac

theorem lexLt_antisymm : ∀ {a b : List Char},
    lexLt a b = false → lexLt b a = false → a = b
  | [], [], _, _ => rfl
  | [], _ :: _, h1, _ => by simp [lexLt] at h1
  | _ :: _, [], _, h2 => by simp [lexLt] at h2
  | a :: as, b :: bs, h1, h2 => by
    simp only [lexLt] at h1 h2
    by_cases hab : a = b
    · subst hab
      simp only [beq_self_eq_true, if_true] at h1 h2
      rw [lexLt_antisymm h1 h2]
    · simp [beq_eq_false_iff_ne.mpr hab] at h1
      simp [beq_eq_false_iff_ne.mpr (Ne.symm hab)] at h2
      exact absurd (le_antisymm h2 h1) hab

theorem lexLt_asymm {a b : List Char} (h : lexLt a b = true) : lexLt b a = false := by
  by_contra hc
  have hba : lexLt b a = true := by
    cases hx : lexLt b a
    · exact absurd hx hc
    · rfl
  have := lexLt_trans h hba
  rw [lexLt_irrefl] at this
  exact Bool.false_ne_true this

theorem strLe_iff {s t : String} : strLe s t = true ↔ lexLt t.data s.data = false := by
  unfold strLe strLt
  cases lexLt t.data s.data <;> simp

theorem strLt_asymm {s t : String} (h : strLt s t = true) : strLt t s = false :=
  lexLt_asymm h

theorem strLe_antisymm {s t : String} (h1 : strLe s t = true)
    (h2 : strLe t s = true) : s = t :=
  String.ext (lexLt_antisymm (strLe_iff.mp h2) (strLe_iff.mp h1))

theorem strLe_total (s t : String) : strLe s t = true ∨ strLe t s = true := by
  rw [strLe_iff, strLe_iff]
  cases hx : lexLt t.data s.data
  · exact Or.inl rfl
  · exact Or.inr (lexLt_asymm hx)

theorem strLe_trans {s t u : String} (h1 : strLe s t = true)
    (h2 : strLe t u = true) : strLe s u = true := by
  rw [strLe_iff] at h1 h2 ⊢
  by_contra hc
  have hus : lexLt u.data s.data = true := by
    cases hx : lexLt u.data s.data
    · exact absurd hx hc
    · rfl
  cases hx : lexLt t.data u.data
  · have hdata : t.data = u.data := lexLt_antisymm hx h2
    rw [← hdata] at hus
    simp [h1] at hus
  · have hts : lexLt t.data s.data = true := lexLt_trans hx hus
    simp [h1] at hts

theorem strLt_of_not_le {s t : String} (h : ¬ strLe s t = true) : strLt t s = true := by
  cases hx : strLt t s
  · exact absurd (by unfold strLe; rw [hx]; rfl) h
  · rfl

theorem strLe_of_lt {s t : String} (h : strLt s t = true) : strLe s t = true :=
  strLe_iff.mpr (lexLt_asymm h)

theorem strLe_refl (s : String) : strLe s s = true :=
  strLe_iff.mpr (lexLt_irrefl s.data)

theorem strLt_or_eq_of_le {s t : String} (h : strLe s t = true) :
    strLt s t = true ∨ s = t := by
  cases hx : strLt s t
  · refine Or.inr (String.ext (lexLt_antisymm ?_ (strLe_iff.mp h)))
    exact hx
  · exact Or.inl rfl

/-! ## Helper lemmas: the sort relation `bnLe` -/

theorem bnLe_total : ∀ a b : Seg, bnLe a b ∨ bnLe b a := fun a b =>
  strLe_total (bn a) (bn b)

theorem bnLe_trans : ∀ {a b c : Seg}, bnLe a b → bnLe b c → bnLe a c :=
  fun h1 h2 => strLe_trans h1 h2

theorem bnLe_isTotal : IsTotal Seg bnLe := ⟨bnLe_total⟩

theorem bnLe_isTrans : IsTrans Seg bnLe := ⟨fun _ _ _ => bnLe_trans⟩

theorem key2Le_bnLe {a b : Seg} (h : key2Le a b) : bnLe a b := by
  rcases h with h | ⟨he, _⟩
  · exact strLe_of_lt h
  · unfold bnLe
    rw [he]
    exact strLe_refl _

/-! ## Helper lemmas: stability of the sort

The program sorts by base name only.  Because the scan emits all driving
segments before all parking segments and a stable sort preserves the input
order of equal keys, the produced order is in fact sorted under `key2Le`
(base name, then driving before parking). -/

theorem orderedInsert_sorted_key2 (x : Seg) (l : List Seg)
    (hs2 : l.Sorted key2Le) (hsb : l.Sorted bnLe)
    (hr : ∀ y ∈ l, bn y = bn x → rank x.prov ≤ rank y.prov) :
    (List.orderedInsert bnLe x l).Sorted key2Le := by
  induction l with
  | nil => simp
  | cons y ys ih =>
    rw [List.orderedInsert]
    by_cases hxy : bnLe x y
    · rw [if_pos hxy, List.sorted_cons]
      refine ⟨fun z hz => ?_, hs2⟩
      have hxz : bnLe x z := by
        rcases List.mem_cons.mp hz with rfl | hz'
        · exact hxy
        · exact bnLe_trans hxy (List.rel_of_sorted_cons hsb z hz')
      rcases strLt_or_eq_of_le hxz with hlt | heq
      · exact Or.inl hlt
      · exact Or.inr ⟨heq, hr z hz heq.symm⟩
    · rw [if_neg hxy, List.sorted_cons]
      have hyx : strLt (bn y) (bn x) = true := strLt_of_not_le hxy
      refine ⟨fun z hz => ?_, ?_⟩
      · rcases (List.mem_orderedInsert bnLe).mp hz with rfl | hz'
        · exact Or.inl hyx
        · exact List.rel_of_sorted_cons hs2 z hz'
      · exact ih (List.sorted_cons.mp hs2).2 (List.sorted_cons.mp hsb).2
          (fun z hz hbz => hr z (List.mem_cons_of_mem y hz) hbz)

theorem insertionSort_sorted_bn (l : List Seg) :
    (List.insertionSort bnLe l).Sorted bnLe := by
  haveI := bnLe_isTotal
  haveI := bnLe_isTrans
  exact List.sorted_insertionSort bnLe l

theorem insertionSort_sorted_key2_parking (p : List Seg)
    (hp : ∀ s ∈ p, s.prov = .parking) :
    (List.insertionSort bnLe p).Sorted key2Le := by
  induction p with
  | nil => simp
  | cons x p' ih =>
    rw [List.insertionSort]
    refine orderedInsert_sorted_key2 x _
      (ih fun s hs => hp s (List.mem_cons_of_mem x hs))
      (insertionSort_sorted_bn p') (fun y hy _ => ?_)
    have hx : x.prov = .parking := hp x (List.mem_cons_self x p')
    have hy' : y.prov = .parking :=
      hp y (List.mem_cons_of_mem x ((List.mem_insertionSort bnLe).mp hy))
    rw [hx, hy']

theorem insertionSort_sorted_key2 (d p : List Seg)
    (hd : ∀ s ∈ d, s.prov = .driving) (hp : ∀ s ∈ p, s.prov = .parking) :
    (List.insertionSort bnLe (d ++ p)).Sorted key2Le := by
  induction d with
  | nil => simpa using insertionSort_sorted_key2_parking p hp
  | cons x d' ih =>
    rw [List.cons_append, List.insertionSort]
    refine orderedInsert_sorted_key2 x _
      (ih fun s hs => hd s (List.mem_cons_of_mem x hs))
      (insertionSort_sorted_bn (d' ++ p)) (fun y _ _ => ?_)
    have hx : x.prov = .driving := hd x (List.mem_cons_self x d')
    rw [hx]
    exact Nat.zero_le _

theorem rank_inj {p q : Prov} (h : rank p = rank q) : p = q := by
  cases p <;> cases q <;> simp_all [rank]

theorem key3Le_antisymm {a b : Seg} (h1 : key3Le a b) (h2 : key3Le b a) :
    a = b := by
  rcases h1 with h1 | ⟨hbn1, h1⟩
  · rcases h2 with h2 | ⟨hbn2, _⟩
    · have := strLt_asymm h1
      simp [this] at h2
    · simp [strLt, hbn2, lexLt_irrefl] at h1
  · rcases h2 with h2 | ⟨_, h2⟩
    · simp [strLt, hbn1, lexLt_irrefl] at h2
    · rcases h1 with h1 | ⟨hr1, h1⟩
      · rcases h2 with h2 | ⟨hr2, _⟩
        · omega
        · omega
      · rcases h2 with h2 | ⟨_, h2⟩
        · omega
        · have hpath : a.path = b.path := strLe_antisymm h1 h2
          have hprov : a.prov = b.prov := rank_inj hr1
          cases a
          cases b
          simp_all

theorem sorted_key3_of_key2 (l : List Seg) (h2 : l.Sorted key2Le)
    (hnd : (l.map key2).Nodup) : l.Sorted key3Le := by
  have hpw : l.Pairwise (fun a b => key2 a ≠ key2 b) :=
    List.pairwise_map.mp hnd
  refine (h2.and hpw).imp ?_
  rintro a b ⟨hab, hne⟩
  rcases hab with hlt | ⟨hbn, hrk⟩
  · exact Or.inl hlt
  · refine Or.inr ⟨hbn, Or.inl ?_⟩
    have : rank a.prov ≠ rank b.prov := by
      intro hr
      exact hne (by unfold key2; rw [hbn, hr])
    omega

theorem sortSegs_eq_of_perm (l l' : List Seg) (hperm : l.Perm l')
    (hs : (sortSegs l).Sorted key3Le) (hs' : (sortSegs l').Sorted key3Le) :
    sortSegs l = sortSegs l' := by
  haveI : IsAntisymm Seg key3Le := ⟨fun _ _ => key3Le_antisymm⟩
  exact List.eq_of_perm_of_sorted
    ((List.perm_insertionSort bnLe l).trans
      (hperm.trans (List.perm_insertionSort bnLe l').symm)) hs hs'

/-! ## Helper lemmas: path strings -/

theorem noSlash_mem {n : String} (h : n.data.contains '/' = false) :
    ∀ c ∈ n.data, (!(c == '/')) = true := by
  intro c hc
  rw [List.contains_eq_any_beq] at h
  by_contra hbad
  have hc' : (c == '/') = true := by
    cases hx : c == '/'
    · exact absurd (by rw [hx]; rfl) hbad
    · rfl
  have : n.data.any (fun x => '/' == x) = true :=
    List.any_eq_true.mpr ⟨c, hc, by
      have hcs : c = '/' := by simpa using hc'
      rw [hcs]
      decide⟩
  simp [this] at h

theorem isAbs_append (d t : String) (h : isAbs d = true) : isAbs (d ++ t) = true := by
  unfold isAbs at h ⊢
  rw [String.data_append]
  cases hd : d.data with
  | nil => rw [hd] at h; exact absurd h (by simp)
  | cons c cs => rw [hd] at h; simpa using h

theorem isAbs_pjoin (d f : String) (h : isAbs d = true) : isAbs (pjoin d f) = true := by
  unfold pjoin
  by_cases hf : isAbs f = true
  · rw [if_pos hf]; exact hf
  · rw [if_neg hf]
    by_cases hds : endsWithSlash d = true
    · rw [if_pos hds]; exact isAbs_append d f h
    · rw [if_neg hds]; exact isAbs_append (d ++ "/") f (isAbs_append d "/" h)

theorem isAbs_abspath (cwd p : String) (h : isAbs cwd = true) :
    isAbs (abspath cwd p) = true := by
  unfold abspath
  by_cases hp : isAbs p = true
  · rw [if_pos hp]; exact hp
  · rw [if_neg hp]; exact isAbs_pjoin cwd p h

theorem notAbs_of_noSlash {n : String} (h : n.data.contains '/' = false) :
    isAbs n = false := by
  unfold isAbs
  cases hd : n.data with
  | nil => rfl
  | cons c cs =>
    rw [hd] at h
    rw [List.contains_cons] at h
    have : ('/' == c) = false := by
      cases hx : ('/' == c)
      · rfl
      · rw [hx] at h; simp at h
    have hc : c ≠ '/' := fun he => by
      rw [he] at this
      simp at this
    simpa using hc

theorem takeWhile_noSlash_append (l₁ l₂ : List Char)
    (h : ∀ c ∈ l₁, (!(c == '/')) = true) :
    (l₁ ++ '/' :: l₂).takeWhile (fun c => !(c == '/')) = l₁ := by
  rw [List.takeWhile_append]
  have h1 : (l₁.takeWhile (fun c => !(c == '/'))) = l₁ :=
    List.takeWhile_eq_self_iff.mpr h
  rw [if_pos (by rw [h1])]
  rw [List.takeWhile_cons]
  simp

theorem dropWhile_noSlash_append (l₁ l₂ : List Char)
    (h : ∀ c ∈ l₁, (!(c == '/')) = true) :
    (l₁ ++ '/' :: l₂).dropWhile (fun c => !(c == '/')) = '/' :: l₂ := by
  rw [List.dropWhile_append]
  have h1 : (l₁.dropWhile (fun c => !(c == '/'))) = [] :=
    List.dropWhile_eq_nil_iff.mpr h
  rw [if_pos (by rw [h1]; rfl)]
  rw [List.dropWhile_cons]
  simp

theorem basename_data (D N : List Char) (hn : ∀ c ∈ N, (!(c == '/')) = true) :
    basename ⟨D ++ '/' :: N⟩ = ⟨N⟩ := by
  unfold basename
  have hdata : (String.mk (D ++ '/' :: N)).data = D ++ '/' :: N := rfl
  rw [hdata, List.reverse_append, List.reverse_cons, List.append_assoc,
    List.singleton_append]
  have : (N.reverse ++ ('/' :: D.reverse)).takeWhile (fun c => !(c == '/')) =
      N.reverse :=
    takeWhile_noSlash_append N.reverse D.reverse
      (fun c hc => hn c (List.mem_reverse.mp hc))
  rw [this, List.reverse_reverse]

theorem dirname_data (D N : List Char) (hn : ∀ c ∈ N, (!(c == '/')) = true) :
    dirname ⟨D ++ '/' :: N⟩ = if D.isEmpty then "/" else ⟨D⟩ := by
  unfold dirname
  have hdata : (String.mk (D ++ '/' :: N)).data = D ++ '/' :: N := rfl
  have hcont : (D ++ '/' :: N).contains '/' = true := by
    have hm : '/' ∈ D ++ '/' :: N := List.mem_append.mpr (Or.inr (List.mem_cons_self _ _))
    simp [List.contains, List.elem_eq_mem, hm]
  rw [hdata, if_pos hcont, List.reverse_append, List.reverse_cons,
    List.append_assoc, List.singleton_append]
  have : (N.reverse ++ ('/' :: D.reverse)).dropWhile (fun c => !(c == '/')) =
      '/' :: D.reverse :=
    dropWhile_noSlash_append N.reverse D.reverse
      (fun c hc => hn c (List.mem_reverse.mp hc))
  rw [this]
  simp only [List.drop_one, List.tail_cons, List.reverse_reverse]

theorem basename_pjoin (d n : String) (hn : n.data.contains '/' = false) :
    basename (pjoin d n) = n := by
  unfold pjoin
  rw [if_neg (by rw [notAbs_of_noSlash hn]; simp)]
  by_cases hds : endsWithSlash d = true
  · rw [if_pos hds]
    unfold endsWithSlash at hds
    have : d.data.getLast? = some '/' := by
      cases hx : d.data.getLast?
      · rw [hx] at hds; simp at hds
      · rw [hx] at hds; simpa using hds
    rcases List.getLast?_eq_some_iff.mp this with ⟨ys, hys⟩
    have hdd : (d ++ n).data = ys ++ '/' :: n.data := by
      rw [String.data_append, hys, List.append_assoc]
      rfl
    have : d ++ n = ⟨ys ++ '/' :: n.data⟩ := String.ext hdd
    rw [this, basename_data ys n.data (noSlash_mem hn)]
  · rw [if_neg hds]
    have hdd : (d ++ "/" ++ n).data = d.data ++ '/' :: n.data := by
      rw [String.data_append, String.data_append, List.append_assoc]
      rfl
    have : d ++ "/" ++ n = ⟨d.data ++ '/' :: n.data⟩ := String.ext hdd
    rw [this, basename_data d.data n.data (noSlash_mem hn)]

theorem dirname_pjoin (d n : String) (hn : n.data.contains '/' = false)
    (hd : d.data ≠ []) (hds : endsWithSlash d = true → d = "/") :
    dirname (pjoin d n) = d := by
  unfold pjoin
  rw [if_neg (by rw [notAbs_of_noSlash hn]; simp)]
  by_cases hsl : endsWithSlash d = true
  · rw [if_pos hsl]
    have hdr : d = "/" := hds hsl
    subst hdr
    have hdd : (("/" : String) ++ n).data = [] ++ '/' :: n.data := by
      rw [String.data_append]
      rfl
    have : ("/" : String) ++ n = ⟨[] ++ '/' :: n.data⟩ := String.ext hdd
    rw [this, dirname_data [] n.data (noSlash_mem hn)]
    rfl
  · rw [if_neg hsl]
    have hdd : (d ++ "/" ++ n).data = d.data ++ '/' :: n.data := by
      rw [String.data_append, String.data_append, List.append_assoc]
      rfl
    have : d ++ "/" ++ n = ⟨d.data ++ '/' :: n.data⟩ := String.ext hdd
    rw [this, dirname_data d.data n.data (noSlash_mem hn)]
    rw [if_neg (by simp [List.isEmpty_iff, hd])]

/-! ## Helper lemmas: the scanner -/

theorem scanEntry_eq_some {dirPath : String} {prov : Prov} {e : FSEntry} {s : Seg} :
    scanEntry dirPath prov e = some s ↔
      ∃ n, e = .file n ∧ isHidden n = false ∧ isVideoFile n = true ∧
        s = ⟨prov, pjoin dirPath n⟩ := by
  cases e with
  | dir m es => simp [scanEntry]
  | file n =>
    simp only [scanEntry]
    by_cases h1 : isHidden n = true
    · rw [if_pos h1]
      simp [h1]
    · rw [if_neg h1]
      by_cases h2 : isVideoFile n = true
      · rw [if_pos h2]
        constructor
        · rintro hs
          refine ⟨n, rfl, by simpa using h1, h2, ?_⟩
          exact (Option.some.injEq _ _ ▸ hs).symm
        · rintro ⟨m, hm, _, _, rfl⟩
          rw [FSEntry.file.injEq] at hm
          rw [hm]
      · rw [if_neg h2]
        simp only [reduceCtorEq, false_iff, not_exists]
        rintro m ⟨hm, _, hv, _⟩
        rw [FSEntry.file.injEq] at hm
        exact h2 (hm ▸ hv)

theorem mem_scanDir {dirPath : String} {prov : Prov} {es : List FSEntry} {s : Seg} :
    s ∈ scanDir dirPath prov es ↔
      ∃ n, FSEntry.file n ∈ es ∧ isHidden n = false ∧ isVideoFile n = true ∧
        s = ⟨prov, pjoin dirPath n⟩ := by
  unfold scanDir
  rw [List.mem_filterMap]
  constructor
  · rintro ⟨e, he, hse⟩
    rcases scanEntry_eq_some.mp hse with ⟨n, rfl, hh, hv, hs⟩
    exact ⟨n, he, hh, hv, hs⟩
  · rintro ⟨n, hn, hh, hv, hs⟩
    exact ⟨.file n, hn, scanEntry_eq_some.mpr ⟨n, rfl, hh, hv, hs⟩⟩

theorem prov_of_mem_scanDir {dirPath : String} {prov : Prov} {es : List FSEntry}
    {s : Seg} (h : s ∈ scanDir dirPath prov es) : s.prov = prov := by
  rcases mem_scanDir.mp h with ⟨n, _, _, _, rfl⟩
  rfl

theorem mem_find_video_files {rootPath : String} {entries : List FSEntry} {s : Seg} :
    s ∈ find_video_files rootPath entries ↔
      (∃ n, FSEntry.file n ∈ (effectiveRoot rootPath entries).2 ∧
        isHidden n = false ∧ isVideoFile n = true ∧
        s = ⟨.driving, pjoin (effectiveRoot rootPath entries).1 n⟩) ∨
      (∃ n ps, findSubdir "Parking" (effectiveRoot rootPath entries).2 = some ps ∧
        FSEntry.file n ∈ ps ∧ isHidden n = false ∧ isVideoFile n = true ∧
        s = ⟨.parking, pjoin (pjoin (effectiveRoot rootPath entries).1 "Parking") n⟩) := by
  unfold find_video_files sortSegs
  rw [List.mem_insertionSort]
  unfold scanSegments parkingSegs
  rw [List.mem_append]
  cases hps : findSubdir "Parking" (effectiveRoot rootPath entries).2 with
  | none =>
    dsimp only
    rw [mem_scanDir]
    simp only [List.not_mem_nil, or_false]
    constructor
    · intro h
      exact Or.inl h
    · rintro (h | ⟨n, ps', hps', _⟩)
      · exact h
      · exact Option.noConfusion hps'
  | some ps =>
    dsimp only
    rw [mem_scanDir]
    constructor
    · rintro (h | h)
      · exact Or.inl h
      · rcases mem_scanDir.mp h with ⟨n, hn, hh, hv, hs⟩
        exact Or.inr ⟨n, ps, rfl, hn, hh, hv, hs⟩
    · rintro (h | ⟨n, ps', hps', hn, hh, hv, hs⟩)
      · exact Or.inl h
      · rw [Option.some.injEq] at hps'
        subst hps'
        exact Or.inr (mem_scanDir.mpr ⟨n, hn, hh, hv, hs⟩)


/-! ## Helper lemmas: the output path resolver -/

theorem abspath_of_isAbs (cwd : String) {p : String} (h : isAbs p = true) :
    abspath cwd p = p := by
  unfold abspath
  rw [if_pos h]

theorem beq_empty_false_of_ne {s : String} (h : s ≠ "") : (s == "") = false :=
  beq_eq_false_iff_ne.mpr h

theorem data_ne_nil_of_ne_empty {s : String} (h : s ≠ "") : s.data ≠ [] :=
  fun hd => h (String.ext (by rw [hd]))

theorem resolve_output_plain_dest (cwd dir0 f d : String) (hf : f ≠ "")
    (hfs : hasSlash f = false) (hd : d ≠ "") :
    resolve_output cwd dir0 (some f) (some d) =
      (abspath cwd (pjoin (abspath cwd d) f), false) := by
  unfold resolve_output
  dsimp only
  rw [beq_empty_false_of_ne hd, beq_empty_false_of_ne hf]
  simp [hfs]

theorem resolve_output_plain_nodest (cwd dir0 f : String) (hf : f ≠ "")
    (hfs : hasSlash f = false) :
    resolve_output cwd dir0 (some f) none =
      (abspath cwd (pjoin (abspath cwd dir0) f), false) := by
  unfold resolve_output
  dsimp only
  rw [beq_empty_false_of_ne hf]
  simp [hfs]

theorem resolve_output_pathy_dest (cwd dir0 g d : String) (hg : g ≠ "")
    (hgs : hasSlash g = true) (hd : d ≠ "") :
    resolve_output cwd dir0 (some g) (some d) = (abspath cwd g, true) := by
  unfold resolve_output
  dsimp only
  rw [beq_empty_false_of_ne hd, beq_empty_false_of_ne hg]
  simp [hgs]

theorem resolve_output_isAbs (cwd dir0 : String) (of dst : Option String)
    (h : isAbs cwd = true) : isAbs (resolve_output cwd dir0 of dst).1 = true := by
  unfold resolve_output
  dsimp only
  split
  · exact isAbs_abspath cwd _ h
  · split
    · exact isAbs_abspath cwd _ h
    · exact isAbs_abspath cwd _ h

/-! ## Claim C1 (Segment Orderer) -/

/-- C1 counterexample: the spec claims ties between equal base names are
broken by the full path string.  With `Z.mp4` present both in the scan root
and in its `Parking` subfolder, the program orders the driving copy first,
although its full path `/d/Z.mp4` compares strictly greater than
`/d/Parking/Z.mp4`; the produced adjacent pair therefore violates the
claimed order. -/
theorem segment_orderer_tiebreak_counterexample :
    find_video_files "/d" [.file "Z.mp4", .dir "Parking" [.file "Z.mp4"]] =
      [⟨.driving, "/d/Z.mp4"⟩, ⟨.parking, "/d/Parking/Z.mp4"⟩] ∧
    ¬ specLe ⟨.driving, "/d/Z.mp4"⟩ ⟨.parking, "/d/Parking/Z.mp4"⟩ := by
  constructor
  · decide
  · unfold specLe
    decide

/-- C1 (amended): for every list of discovered segments (driving segments,
then parking segments, as the scanner emits them), the Segment Orderer
produces a sequence sorted non-decreasing by the lexical value of each
file's base name, with ties between equal base names broken by provenance
(driving before parking) rather than by the full path string; under the
filesystem guarantee that names are unique, the result is a deterministic
total order that does not depend on the iteration order of either
directory listing. -/
theorem segment_orderer_sorted_deterministic (d p dp pp : List Seg)
    (hdp : d.Perm dp) (hpp : p.Perm pp)
    (hd : ∀ s ∈ d, s.prov = .driving) (hp : ∀ s ∈ p, s.prov = .parking)
    (hnd : ((d ++ p).map key2).Nodup) :
    (sortSegs (d ++ p)).Sorted key2Le ∧
      sortSegs (d ++ p) = sortSegs (dp ++ pp) := by
  have hd' : ∀ s ∈ dp, s.prov = .driving := fun s hs => hd s (hdp.mem_iff.mpr hs)
  have hp' : ∀ s ∈ pp, s.prov = .parking := fun s hs => hp s (hpp.mem_iff.mpr hs)
  have happ : (d ++ p).Perm (dp ++ pp) := hdp.append hpp
  have h2 : (sortSegs (d ++ p)).Sorted key2Le := insertionSort_sorted_key2 d p hd hp
  have h2' : (sortSegs (dp ++ pp)).Sorted key2Le :=
    insertionSort_sorted_key2 dp pp hd' hp'
  have hnd' : ((dp ++ pp).map key2).Nodup := ((happ.map key2).nodup_iff).mp hnd
  have hnds : ((sortSegs (d ++ p)).map key2).Nodup :=
    (((List.perm_insertionSort bnLe (d ++ p)).map key2).nodup_iff).mpr hnd
  have hnds' : ((sortSegs (dp ++ pp)).map key2).Nodup :=
    (((List.perm_insertionSort bnLe (dp ++ pp)).map key2).nodup_iff).mpr hnd'
  exact ⟨h2, sortSegs_eq_of_perm _ _ happ
    (sorted_key3_of_key2 _ h2 hnds) (sorted_key3_of_key2 _ h2' hnds')⟩

/-- Witness for C1: a concrete scan with the driving listing presented in two
different iteration orders produces the same sorted result. -/
theorem segment_orderer_sorted_deterministic_witness :
    (sortSegs ([⟨.driving, "/d/B.mp4"⟩, ⟨.driving, "/d/A.mp4"⟩] ++
        [⟨.parking, "/d/Parking/A.mp4"⟩])).Sorted key2Le ∧
      sortSegs ([⟨.driving, "/d/B.mp4"⟩, ⟨.driving, "/d/A.mp4"⟩] ++
        [⟨.parking, "/d/Parking/A.mp4"⟩]) =
      sortSegs ([⟨.driving, "/d/A.mp4"⟩, ⟨.driving, "/d/B.mp4"⟩] ++
        [⟨.parking, "/d/Parking/A.mp4"⟩]) :=
  segment_orderer_sorted_deterministic
    [⟨.driving, "/d/B.mp4"⟩, ⟨.driving, "/d/A.mp4"⟩]
    [⟨.parking, "/d/Parking/A.mp4"⟩]
    [⟨.driving, "/d/A.mp4"⟩, ⟨.driving, "/d/B.mp4"⟩]
    [⟨.parking, "/d/Parking/A.mp4"⟩]
    (List.Perm.swap (⟨.driving, "/d/A.mp4"⟩ : Seg) (⟨.driving, "/d/B.mp4"⟩ : Seg) [])
    (List.Perm.refl _) (by decide) (by decide) (by decide)

/-! ## Claim C2 (Segment Scanner reach) -/

/-- C2 counterexample: the spec claims every eligible regular file at any
depth under the effective scan root is emitted.  `a.mp4` is an eligible
video file (not hidden, recognised extension) sitting at depth two inside
subfolder `Sub` of the root, yet the scan emits no segment at all: the
program only reads the top level of the effective root and of its
`Parking` subfolder. -/
theorem scanner_not_recursive_counterexample :
    isHidden "a.mp4" = false ∧ isVideoFile "a.mp4" = true ∧
    find_video_files "/r" [.dir "Sub" [.file "a.mp4"]] = [] := by
  refine ⟨by decide, by decide, by decide⟩

/-- C2 (amended): for every source root, the Segment Scanner enumerates
regular files only at the top level of the effective scan root (the
`Movie` subfolder if it exists and is a directory, otherwise the root
itself) and at the top level of its `Parking` subfolder: a segment is
emitted exactly for each non-hidden video file found there, classified
driving at the root's top level and parking inside `Parking`; files in
other subfolders or at greater depth are not emitted. -/
theorem scanner_membership (rootPath : String) (entries : List FSEntry) (s : Seg) :
    s ∈ find_video_files rootPath entries ↔
      (∃ n, FSEntry.file n ∈ (effectiveRoot rootPath entries).2 ∧
        isHidden n = false ∧ isVideoFile n = true ∧
        s = ⟨.driving, pjoin (effectiveRoot rootPath entries).1 n⟩) ∨
      (∃ n ps, findSubdir "Parking" (effectiveRoot rootPath entries).2 = some ps ∧
        FSEntry.file n ∈ ps ∧ isHidden n = false ∧ isVideoFile n = true ∧
        s = ⟨.parking, pjoin (pjoin (effectiveRoot rootPath entries).1 "Parking") n⟩) :=
  mem_find_video_files

/-! ## Claim C3 (Output Path Resolver) -/

/-- C3: for every combination of optional output name, optional destination
directory, and source root, the resolver applies the fixed precedence
policy: no output name (or an empty one) defaults to `stitched_output.mp4`;
an output name with no directory component is placed in the destination
directory if given, otherwise in the source root; an output name with a
directory component wins over a given destination directory and the
warning fires; and the resolved path is always absolute. -/
theorem output_path_resolver (cwd dir0 f d : String)
    (hcwd : isAbs cwd = true)
    (hdir : isAbs dir0 = true) (hdirs : endsWithSlash dir0 = false) (hdir0 : dir0 ≠ "")
    (hdabs : isAbs d = true) (hds : endsWithSlash d = false) (hdne : d ≠ "")
    (hf : f ≠ "") (hfs : hasSlash f = false) :
    (resolve_output cwd dir0 none (some d) =
        resolve_output cwd dir0 (some "stitched_output.mp4") (some d) ∧
      resolve_output cwd dir0 (some "") none =
        resolve_output cwd dir0 (some "stitched_output.mp4") none) ∧
    (dirname (resolve_output cwd dir0 (some f) (some d)).1 = d ∧
      basename (resolve_output cwd dir0 (some f) (some d)).1 = f ∧
      (resolve_output cwd dir0 (some f) (some d)).2 = false) ∧
    (dirname (resolve_output cwd dir0 (some f) none).1 = dir0 ∧
      basename (resolve_output cwd dir0 (some f) none).1 = f ∧
      (resolve_output cwd dir0 (some f) none).2 = false) ∧
    (∀ g : String, g ≠ "" → hasSlash g = true →
      (resolve_output cwd dir0 (some g) (some d)).1 = abspath cwd g ∧
      (resolve_output cwd dir0 (some g) (some d)).2 = true) ∧
    (∀ of dst : Option String, isAbs (resolve_output cwd dir0 of dst).1 = true) := by
  have hfs' : f.data.contains '/' = false := hfs
  refine ⟨⟨?_, ?_⟩, ?_, ?_, ?_, ?_⟩
  · unfold resolve_output
    dsimp only
    rw [show (("stitched_output.mp4" : String) == "") = false from by decide]
    simp
  · unfold resolve_output
    dsimp only
    rw [show (("" : String) == "") = true from rfl,
      show (("stitched_output.mp4" : String) == "") = false from by decide]
    simp
  · rw [resolve_output_plain_dest cwd dir0 f d hf hfs hdne]
    dsimp only
    rw [abspath_of_isAbs cwd hdabs, abspath_of_isAbs cwd (isAbs_pjoin d f hdabs)]
    refine ⟨?_, basename_pjoin d f hfs', rfl⟩
    exact dirname_pjoin d f hfs' (data_ne_nil_of_ne_empty hdne)
      (fun hcon => by rw [hds] at hcon; exact Bool.noConfusion hcon)
  · rw [resolve_output_plain_nodest cwd dir0 f hf hfs]
    dsimp only
    rw [abspath_of_isAbs cwd hdir, abspath_of_isAbs cwd (isAbs_pjoin dir0 f hdir)]
    refine ⟨?_, basename_pjoin dir0 f hfs', rfl⟩
    exact dirname_pjoin dir0 f hfs' (data_ne_nil_of_ne_empty hdir0)
      (fun hcon => by rw [hdirs] at hcon; exact Bool.noConfusion hcon)
  · intro g hg hgs
    rw [resolve_output_pathy_dest cwd dir0 g d hg hgs hdne]
    exact ⟨rfl, rfl⟩
  · intro of dst
    exact resolve_output_isAbs cwd dir0 of dst hcwd

/-- Witness for C3 at the specification's own example values. -/
theorem output_path_resolver_witness :
    (resolve_output "/c" "/src" none (some "/out") =
        resolve_output "/c" "/src" (some "stitched_output.mp4") (some "/out") ∧
      resolve_output "/c" "/src" (some "") none =
        resolve_output "/c" "/src" (some "stitched_output.mp4") none) ∧
    (dirname (resolve_output "/c" "/src" (some "trip.mp4") (some "/out")).1 = "/out" ∧
      basename (resolve_output "/c" "/src" (some "trip.mp4") (some "/out")).1 = "trip.mp4" ∧
      (resolve_output "/c" "/src" (some "trip.mp4") (some "/out")).2 = false) ∧
    (dirname (resolve_output "/c" "/src" (some "trip.mp4") none).1 = "/src" ∧
      basename (resolve_output "/c" "/src" (some "trip.mp4") none).1 = "trip.mp4" ∧
      (resolve_output "/c" "/src" (some "trip.mp4") none).2 = false) ∧
    (∀ g : String, g ≠ "" → hasSlash g = true →
      (resolve_output "/c" "/src" (some g) (some "/out")).1 = abspath "/c" g ∧
      (resolve_output "/c" "/src" (some g) (some "/out")).2 = true) ∧
    (∀ of dst : Option String, isAbs (resolve_output "/c" "/src" of dst).1 = true) :=
  output_path_resolver "/c" "/src" "trip.mp4" "/out" (by decide) (by decide)
    (by decide) (by decide) (by decide) (by decide) (by decide) (by decide)
    (by decide)

/-! ## Claim C4 (Manifest Builder) -/

theorem isAbs_normSlashes {s : String} (h : isAbs s = true) :
    isAbs (normSlashes s) = true := by
  unfold isAbs at h ⊢
  unfold normSlashes
  cases hd : s.data with
  | nil => rw [hd] at h; exact absurd h (by simp)
  | cons c cs =>
    rw [hd] at h
    have hc : c = '/' := by simpa using h
    subst hc
    simp only [List.map_cons]
    rw [show ((('/' : Char) == bslashChar) = false) from by decide]
    simp

theorem normSlashes_no_bslash (s : String) :
    (normSlashes s).data.all (fun c => !(c == bslashChar)) = true := by
  unfold normSlashes
  rw [show (String.mk (s.data.map fun c => if c == bslashChar then '/' else c)).data
      = s.data.map (fun c => if c == bslashChar then '/' else c) from rfl]
  rw [List.all_map]
  apply List.all_eq_true.mpr
  intro x _
  by_cases hx : (x == bslashChar) = true
  · simp only [Function.comp_apply, hx, if_true]
    decide
  · simp only [Function.comp_apply, Bool.not_eq_true] at hx
    simp only [Function.comp_apply, hx]
    simp [hx]

/-- C4: for every working directory and ordered segment list, the manifest
has exactly one line per segment (line count equals segment count), the
lines appear in exactly the list's order (the i-th line is the line of the
i-th segment), and each line has the form `file '<path>'` where the quoted
path is absolute and contains no backslash. -/
theorem manifest_builder (cwd : String) (l : List Seg) (hcwd : isAbs cwd = true) :
    (create_concat_file cwd l).length = l.length ∧
    (∀ i (hi : i < l.length) (hi2 : i < (create_concat_file cwd l).length),
      (create_concat_file cwd l).get ⟨i, hi2⟩ = concat_line cwd (l.get ⟨i, hi⟩)) ∧
    (∀ s ∈ l, ∃ pth : String,
      concat_line cwd s = "file " ++ sq ++ pth ++ sq ∧ isAbs pth = true ∧
        pth.data.all (fun c => !(c == bslashChar)) = true) := by
  refine ⟨List.length_map l (concat_line cwd), ?_, ?_⟩
  · intro i hi hi2
    unfold create_concat_file
    simp
  · intro s _
    refine ⟨normSlashes (abspath cwd s.path), rfl, ?_, normSlashes_no_bslash _⟩
    exact isAbs_normSlashes (isAbs_abspath cwd s.path hcwd)

/-- Witness for C4 on a concrete two-segment list. -/
theorem manifest_builder_witness :
    (create_concat_file "/c" [⟨.driving, "/d/a.mp4"⟩, ⟨.parking, "/d/Parking/b.mp4"⟩]).length =
      ([⟨.driving, "/d/a.mp4"⟩, ⟨.parking, "/d/Parking/b.mp4"⟩] : List Seg).length ∧
    (∀ i (hi : i < ([⟨.driving, "/d/a.mp4"⟩, ⟨.parking, "/d/Parking/b.mp4"⟩] : List Seg).length)
      (hi2 : i < (create_concat_file "/c" [⟨.driving, "/d/a.mp4"⟩, ⟨.parking, "/d/Parking/b.mp4"⟩]).length),
      (create_concat_file "/c" [⟨.driving, "/d/a.mp4"⟩, ⟨.parking, "/d/Parking/b.mp4"⟩]).get ⟨i, hi2⟩ =
        concat_line "/c" (([⟨.driving, "/d/a.mp4"⟩, ⟨.parking, "/d/Parking/b.mp4"⟩] : List Seg).get ⟨i, hi⟩)) ∧
    (∀ s ∈ ([⟨.driving, "/d/a.mp4"⟩, ⟨.parking, "/d/Parking/b.mp4"⟩] : List Seg), ∃ pth : String,
      concat_line "/c" s = "file " ++ sq ++ pth ++ sq ∧ isAbs pth = true ∧
        pth.data.all (fun c => !(c == bslashChar)) = true) :=
  manifest_builder "/c" [⟨.driving, "/d/a.mp4"⟩, ⟨.parking, "/d/Parking/b.mp4"⟩] (by decide)

/-! ## Claim C5 (Manifest Builder escaping) -/

/-- C5: the code comment says special characters are escaped, but for a
segment path containing a single quote (here `/d/it's.mp4`, built
character-by-character to keep the quote explicit) the written line
contains three quote characters and no backslash: the interior quote is
emitted raw, terminating the muxer's quoted token early, and no escape
sequence of any kind was added. -/
theorem manifest_quote_unescaped :
    (concat_line "/c" ⟨.driving,
        ⟨['/', 'd', '/', 'i', 't', squoteChar, 's', '.', 'm', 'p', '4']⟩⟩).data.count
      squoteChar = 3 ∧
    (concat_line "/c" ⟨.driving,
        ⟨['/', 'd', '/', 'i', 't', squoteChar, 's', '.', 'm', 'p', '4']⟩⟩).data.count
      bslashChar = 0 := by
  constructor
  · decide
  · decide

/-! ## Claim C6 (manifest lifetime) -/

/-- C6 counterexample: with the muxer binary missing (`Popen` raises
`FileNotFoundError`), the run catches the exception after the manifest was
created and returns without deleting it: the transient manifest file
outlives the run. -/
theorem manifest_cleanup_counterexample :
    (stitch_videos ⟨"/c", .ok, .raiseFileNotFound, false⟩ "/d" [.file "a.mp4"]
        none none).manifestCreated = true ∧
    (stitch_videos ⟨"/c", .ok, .raiseFileNotFound, false⟩ "/d" [.file "a.mp4"]
        none none).manifestDeleted = false ∧
    (stitch_videos ⟨"/c", .ok, .raiseFileNotFound, false⟩ "/d" [.file "a.mp4"]
        none none).returned = some false := by
  refine ⟨by decide, by decide, by decide⟩

/-- C6 (amended): after the manifest has been created, it is deleted only on
the exit paths where the muxer process was actually launched and
terminated (success or non-zero exit, and then only when `os.remove`
itself succeeds); on an exception during process launch (including the
muxer binary being missing, and any other exception caught by the `try`)
the manifest is left behind, and on an error raised during manifest
writing the exception propagates out of the run with the manifest left
behind. -/
theorem manifest_cleanup_paths (env : StitchEnv) (dir0 : String)
    (entries : List FSEntry) (of dst : Option String)
    (hne : find_video_files (abspath env.cwd dir0) entries ≠ []) :
    (∀ c : Int, env.manifestWrite = .ok → env.launch = .exits c →
      (stitch_videos env dir0 entries of dst).manifestCreated = true ∧
      (stitch_videos env dir0 entries of dst).manifestDeleted = !env.removeFails ∧
      (stitch_videos env dir0 entries of dst).returned = some (c == 0)) ∧
    (env.manifestWrite = .ok →
      (env.launch = .raiseFileNotFound ∨ env.launch = .raiseOther) →
      (stitch_videos env dir0 entries of dst).manifestCreated = true ∧
      (stitch_videos env dir0 entries of dst).manifestDeleted = false ∧
      (stitch_videos env dir0 entries of dst).returned = some false) ∧
    (env.manifestWrite = .raiseAfterCreate →
      (stitch_videos env dir0 entries of dst).manifestCreated = true ∧
      (stitch_videos env dir0 entries of dst).manifestDeleted = false ∧
      (stitch_videos env dir0 entries of dst).returned = none) := by
  obtain ⟨cwd, mw, lr, rf⟩ := env
  rcases hx : find_video_files (abspath cwd dir0) entries with _ | ⟨s0, rest⟩
  · exact absurd hx hne
  · refine ⟨?_, ?_, ?_⟩
    · rintro c hmw hlr
      subst hmw
      subst hlr
      simp [stitch_videos, hx]
    · rintro hmw (hlr | hlr) <;> subst hmw <;> subst hlr <;>
        simp [stitch_videos, hx]
    · rintro hmw
      subst hmw
      simp [stitch_videos, hx]

/-- Witness for C6: a run whose muxer exits non-zero still deletes the
manifest, matching the amended cleanup rule. -/
theorem manifest_cleanup_paths_witness :
    ((∀ c : Int, (⟨"/c", .ok, .exits 1, false⟩ : StitchEnv).manifestWrite = .ok →
      (⟨"/c", .ok, .exits 1, false⟩ : StitchEnv).launch = .exits c →
      (stitch_videos ⟨"/c", .ok, .exits 1, false⟩ "/d" [.file "a.mp4"] none none).manifestCreated = true ∧
      (stitch_videos ⟨"/c", .ok, .exits 1, false⟩ "/d" [.file "a.mp4"] none none).manifestDeleted =
        !(⟨"/c", .ok, .exits 1, false⟩ : StitchEnv).removeFails ∧
      (stitch_videos ⟨"/c", .ok, .exits 1, false⟩ "/d" [.file "a.mp4"] none none).returned = some (c == 0)) ∧
    ((⟨"/c", .ok, .exits 1, false⟩ : StitchEnv).manifestWrite = .ok →
      ((⟨"/c", .ok, .exits 1, false⟩ : StitchEnv).launch = .raiseFileNotFound ∨
        (⟨"/c", .ok, .exits 1, false⟩ : StitchEnv).launch = .raiseOther) →
      (stitch_videos ⟨"/c", .ok, .exits 1, false⟩ "/d" [.file "a.mp4"] none none).manifestCreated = true ∧
      (stitch_videos ⟨"/c", .ok, .exits 1, false⟩ "/d" [.file "a.mp4"] none none).manifestDeleted = false ∧
      (stitch_videos ⟨"/c", .ok, .exits 1, false⟩ "/d" [.file "a.mp4"] none none).returned = some false) ∧
    ((⟨"/c", .ok, .exits 1, false⟩ : StitchEnv).manifestWrite = .raiseAfterCreate →
      (stitch_videos ⟨"/c", .ok, .exits 1, false⟩ "/d" [.file "a.mp4"] none none).manifestCreated = true ∧
      (stitch_videos ⟨"/c", .ok, .exits 1, false⟩ "/d" [.file "a.mp4"] none none).manifestDeleted = false ∧
      (stitch_videos ⟨"/c", .ok, .exits 1, false⟩ "/d" [.file "a.mp4"] none none).returned = none)) :=
  manifest_cleanup_paths ⟨"/c", .ok, .exits 1, false⟩ "/d" [.file "a.mp4"] none none
    (by decide)

/-! ## Claim C7 (Segment filter invariant) -/

theorem isSuffixOf_iff_suffix {l₁ l₂ : List Char} :
    l₁.isSuffixOf l₂ = true ↔ l₁ <:+ l₂ := by
  unfold List.isSuffixOf
  rw [List.isPrefixOf_iff_prefix]
  exact List.reverse_prefix

theorem hasCIExt_of_isVideoFile {n : String} (h : isVideoFile n = true) :
    hasCIExt n := by
  unfold isVideoFile at h
  rcases List.any_eq_true.mp h with ⟨e, he, hsuf⟩
  have hs : e.data <:+ n.data := isSuffixOf_iff_suffix.mp hsuf
  have hmap : e.data.map Char.toLower <:+ n.data.map Char.toLower :=
    List.IsSuffix.map Char.toLower hs
  have hlow : ∀ x ∈ video_extensions, ∃ f ∈ specExts,
      x.data.map Char.toLower = f.data := by decide
  rcases hlow e he with ⟨f, hf, heq⟩
  rw [heq] at hmap
  exact ⟨f, hf, isSuffixOf_iff_suffix.mpr hmap⟩

/-- C7 counterexample: the spec claims any file whose extension equals one of
the four in any letter casing is included, but `a.Mp4` — not hidden, and
with extension `mp4` up to case — yields no segment: the code tests
`str.endswith` against the eight all-lower/all-upper literals only. -/
theorem mixed_case_extension_counterexample :
    isHidden "a.Mp4" = false ∧ hasCIExt "a.Mp4" ∧
    find_video_files "/r" [.file "a.Mp4"] = [] := by
  refine ⟨by decide, ⟨".mp4", by decide, by decide⟩, by decide⟩

/-- C7 (amended): every Segment emitted by the Scanner comes from a file name
that is not hidden (does not begin with `.` or `._`), passes the
`endswith` test against the eight exact-case extension literals — hence in
particular its lower-cased name ends in one of `.mp4`, `.avi`, `.mov`,
`.mkv` — and sits at the top level of the effective root or of its
`Parking` subfolder; only the eight exact casings are accepted (mixed
casings such as `.Mp4` are excluded), and scanning a directory containing
`a.mp4`, `._a.mp4`, `.DS_Store`, `b.MP4` yields exactly the two segments
`a.mp4` and `b.MP4` in that order. -/
theorem segment_filter_invariant (rootPath : String) (entries : List FSEntry)
    (s : Seg) (h : s ∈ find_video_files rootPath entries) :
    (∃ n, isHidden n = false ∧ isVideoFile n = true ∧ hasCIExt n ∧
      (s.path = pjoin (effectiveRoot rootPath entries).1 n ∨
       s.path = pjoin (pjoin (effectiveRoot rootPath entries).1 "Parking") n)) ∧
    find_video_files "/r" [.file "a.mp4", .file "._a.mp4", .file ".DS_Store",
        .file "b.MP4"] =
      [⟨.driving, "/r/a.mp4"⟩, ⟨.driving, "/r/b.MP4"⟩] := by
  refine ⟨?_, by decide⟩
  rcases mem_find_video_files.mp h with ⟨n, _, hh, hv, rfl⟩ | ⟨n, ps, _, _, hh, hv, rfl⟩
  · exact ⟨n, hh, hv, hasCIExt_of_isVideoFile hv, Or.inl rfl⟩
  · exact ⟨n, hh, hv, hasCIExt_of_isVideoFile hv, Or.inr rfl⟩

/-- Witness for C7 at a concrete scanned segment. -/
theorem segment_filter_invariant_witness :
    (∃ n, isHidden n = false ∧ isVideoFile n = true ∧ hasCIExt n ∧
      ((⟨.driving, "/r/a.mp4"⟩ : Seg).path =
        pjoin (effectiveRoot "/r" [.file "a.mp4", .file "._a.mp4",
          .file ".DS_Store", .file "b.MP4"]).1 n ∨
       (⟨.driving, "/r/a.mp4"⟩ : Seg).path =
        pjoin (pjoin (effectiveRoot "/r" [.file "a.mp4", .file "._a.mp4",
          .file ".DS_Store", .file "b.MP4"]).1 "Parking") n)) ∧
    find_video_files "/r" [.file "a.mp4", .file "._a.mp4", .file ".DS_Store",
        .file "b.MP4"] =
      [⟨.driving, "/r/a.mp4"⟩, ⟨.driving, "/r/b.MP4"⟩] :=
  segment_filter_invariant "/r"
    [.file "a.mp4", .file "._a.mp4", .file ".DS_Store", .file "b.MP4"]
    ⟨.driving, "/r/a.mp4"⟩ (by decide)

/-! ## Claim C8 (Concat Runner progress labels) -/

theorem contains_false_mem {x : Char} {l : List Char} (h : l.contains x = false) :
    ∀ c ∈ l, (c == x) = false := by
  intro c hc
  cases hcx : (c == x)
  · rfl
  · have hcx' : c = x := by simpa using hcx
    subst hcx'
    rw [List.contains_eq_any_beq] at h
    have : l.any (fun y => c == y) = true := List.any_eq_true.mpr ⟨c, hc, by simp⟩
    rw [this] at h
    exact Bool.noConfusion h

theorem splitChar_sepless {sep : Char} : ∀ (l : List Char),
    (∀ c ∈ l, (c == sep) = false) → splitChar sep l = [l]
  | [], _ => rfl
  | c :: cs, h => by
    have hc : (c == sep) = false := h c (List.mem_cons_self c cs)
    have ih := splitChar_sepless cs (fun x hx => h x (List.mem_cons_of_mem c hx))
    simp [splitChar, hc, ih]

theorem splitChar_append {sep : Char} : ∀ (l₁ l₂ : List Char),
    (∀ c ∈ l₁, (c == sep) = false) →
    splitChar sep (l₁ ++ sep :: l₂) = l₁ :: splitChar sep l₂
  | [], l₂, _ => by simp [splitChar]
  | c :: cs, l₂, h => by
    have hc : (c == sep) = false := h c (List.mem_cons_self c cs)
    have ih := splitChar_append cs l₂ (fun x hx => h x (List.mem_cons_of_mem c hx))
    simp [splitChar, hc, ih]

theorem containsSub_of_prefix {l₁ l₂ : List Char} (h : l₁ <+: l₂) :
    containsSub l₁ l₂ = true := by
  cases l₂ with
  | nil =>
    have : l₁ = [] := List.prefix_nil.mp h
    subst this
    rfl
  | cons c cs =>
    have hp : l₁.isPrefixOf (c :: cs) = true := List.isPrefixOf_iff_prefix.mpr h
    simp [containsSub, hp]

theorem containsSub_of_infix {l₁ l₂ : List Char} (h : l₁ <:+: l₂) :
    containsSub l₁ l₂ = true := by
  obtain ⟨s, t, rfl⟩ := h
  induction s with
  | nil =>
    rw [List.nil_append]
    exact containsSub_of_prefix (List.prefix_append l₁ t)
  | cons c s' ih =>
    rw [List.cons_append, List.cons_append]
    simp only [containsSub]
    rw [ih]
    simp

theorem infix_of_containsSub : ∀ {l₂ l₁ : List Char},
    containsSub l₁ l₂ = true → l₁ <:+: l₂ := by
  intro l₂
  induction l₂ with
  | nil =>
    intro l₁ h
    have : l₁.isEmpty = true := h
    rw [List.isEmpty_iff] at this
    subst this
    exact List.nil_infix
  | cons c cs ih =>
    intro l₁ h
    have h' : (l₁.isPrefixOf (c :: cs) || containsSub l₁ cs) = true := h
    rcases Bool.or_eq_true_iff.mp h' with hp | hc
    · exact (List.isPrefixOf_iff_prefix.mp hp).isInfix
    · exact List.infix_cons (ih hc)

theorem mkOpeningLine_data (p : String) :
    (mkOpeningLine p).data =
      ("[concat @ 0] ".data ++ "Opening ".data) ++ squoteChar ::
        (p.data ++ squoteChar :: " for reading".data) := by
  unfold mkOpeningLine openingMarker sq
  rw [String.data_append, String.data_append, String.data_append,
    String.data_append]
  simp [List.append_assoc]

theorem extractFilename_mkOpeningLine (p : String)
    (hq : p.data.contains squoteChar = false) :
    extractFilename (mkOpeningLine p) =
      ⟨(splitChar bslashChar ((splitChar '/' p.data).getLastD [])).getLastD []⟩ := by
  unfold extractFilename
  rw [mkOpeningLine_data]
  have hA : ∀ c ∈ ("[concat @ 0] ".data ++ "Opening ".data),
      (c == squoteChar) = false := by decide
  have hB : ∀ c ∈ " for reading".data, (c == squoteChar) = false := by decide
  rw [splitChar_append _ _ hA, splitChar_append _ _ (contains_false_mem hq),
    splitChar_sepless _ hB]
  rfl

theorem isOpeningLine_mkOpeningLine (p : String)
    (hext : (extMarkers.any fun e => containsSub e.data p.data) = true) :
    isOpeningLine (mkOpeningLine p) = true := by
  have h1 : containsSub openingMarker (mkOpeningLine p).data = true := by
    refine containsSub_of_infix ⟨"[concat @ 0] ".data,
      p.data ++ squoteChar :: " for reading".data, ?_⟩
    rw [mkOpeningLine_data]
    unfold openingMarker
    simp [List.append_assoc]
  have h2 : (extMarkers.any fun e => containsSub e.data (mkOpeningLine p).data) = true := by
    rcases List.any_eq_true.mp hext with ⟨e, he, hce⟩
    refine List.any_eq_true.mpr ⟨e, he, ?_⟩
    have hep : e.data <:+: p.data := infix_of_containsSub hce
    have hpl : p.data <:+: (mkOpeningLine p).data := by
      refine ⟨("[concat @ 0] ".data ++ "Opening ".data) ++ [squoteChar],
        squoteChar :: " for reading".data, ?_⟩
      rw [mkOpeningLine_data]
      simp [List.append_assoc]
    exact containsSub_of_infix (hep.trans hpl)
  unfold isOpeningLine
  rw [h1, h2]
  rfl

theorem displayedLabel_provLabel (f : String) (pv : Prov) :
    displayedLabel f = provLabel pv ↔
      (pv = .parking ↔ containsSub "PF.".data f.data = true) := by
  cases pv <;> by_cases hpf : containsSub "PF.".data f.data = true <;>
    simp [displayedLabel, provLabel, hpf]

/-- C8 counterexample: a file that lives in the effective root (so its
recorded provenance is driving) but whose name contains `PF.` is surfaced
by the Concat Runner as PARKING: the displayed label is re-derived from the
filename by the `'PF.' in filename` test, not taken from the Segment's
recorded provenance. -/
theorem progress_label_counterexample :
    find_video_files "/d" [.file "2023_PF.mp4"] =
      [⟨.driving, "/d/2023_PF.mp4"⟩] ∧
    (processLine 1 0 (mkOpeningLine "/d/2023_PF.mp4")).2 =
      .progress 1 1 "PARKING" "2023_PF.mp4" ∧
    provLabel (⟨.driving, "/d/2023_PF.mp4"⟩ : Seg).prov = "DRIVING" ∧
    ("PARKING" : String) ≠ "DRIVING" := by
  refine ⟨by decide, by decide, by decide, by decide⟩

/-- C8 (amended): for every muxer diagnostic line reporting that a new input
file is being opened, the Concat Runner increments the per-file counter and
surfaces a progress event whose filename is the last path component of the
opened path and whose DRIVING/PARKING label is computed from that filename
alone — PARKING exactly when it contains the substring `PF.` — so the label
agrees with a Segment's recorded provenance exactly when that filename rule
and the directory-based classification coincide. -/
theorem progress_label_rule (total count : Nat) (p : String)
    (hq : p.data.contains squoteChar = false)
    (hext : (extMarkers.any fun e => containsSub e.data p.data) = true) :
    processLine total count (mkOpeningLine p) =
      (count + 1, .progress (count + 1) total
        (displayedLabel (extractFilename (mkOpeningLine p)))
        (extractFilename (mkOpeningLine p))) ∧
    extractFilename (mkOpeningLine p) =
      ⟨(splitChar bslashChar ((splitChar '/' p.data).getLastD [])).getLastD []⟩ ∧
    (∀ s : Seg,
      displayedLabel (extractFilename (mkOpeningLine p)) = provLabel s.prov ↔
      (s.prov = .parking ↔
        containsSub "PF.".data (extractFilename (mkOpeningLine p)).data = true)) := by
  refine ⟨?_, extractFilename_mkOpeningLine p hq,
    fun s => displayedLabel_provLabel _ s.prov⟩
  unfold processLine
  rw [if_pos (isOpeningLine_mkOpeningLine p hext)]

/-- Witness for C8 at a concrete opened path. -/
theorem progress_label_rule_witness :
    processLine 3 0 (mkOpeningLine "/d/x.mp4") =
      (0 + 1, .progress (0 + 1) 3
        (displayedLabel (extractFilename (mkOpeningLine "/d/x.mp4")))
        (extractFilename (mkOpeningLine "/d/x.mp4"))) ∧
    extractFilename (mkOpeningLine "/d/x.mp4") =
      ⟨(splitChar bslashChar ((splitChar '/' "/d/x.mp4".data).getLastD [])).getLastD []⟩ ∧
    (∀ s : Seg,
      displayedLabel (extractFilename (mkOpeningLine "/d/x.mp4")) = provLabel s.prov ↔
      (s.prov = .parking ↔
        containsSub "PF.".data (extractFilename (mkOpeningLine "/d/x.mp4")).data = true)) :=
  progress_label_rule 3 0 "/d/x.mp4" (by decide) (by decide)

/-! ## Claim C9 (CLI argument parsing) -/

theorem parseLoop_no_dest : ∀ (out dest : Option String) (xs : List String)
    (h : ∀ x ∈ xs, x ≠ "--dest") (hne : xs ≠ []),
    parseLoop out dest xs = (some (xs.getLast hne), dest)
  | _, _, [], _, hne => absurd rfl hne
  | _, _, [_], _, _ => by simp [parseLoop]
  | out, dest, a :: v :: rest, h, hx => by
    have ha : a ≠ "--dest" := h a (List.mem_cons_self a (v :: rest))
    rw [parseLoop, if_neg (by simpa using ha)]
    rw [parseLoop_no_dest (some a) dest (v :: rest)
      (fun x hxm => h x (List.mem_cons_of_mem a hxm)) (List.cons_ne_nil v rest)]
    have hg : (a :: v :: rest).getLast hx =
        (v :: rest).getLast (List.cons_ne_nil v rest) :=
      List.getLast_cons (List.cons_ne_nil v rest)
    rw [Prod.mk.injEq]
    exact ⟨by rw [hg], rfl⟩

theorem parseLoop_trailing_dest : ∀ (out dest : Option String) (xs : List String)
    (h : ∀ x ∈ xs, x ≠ "--dest"),
    parseLoop out dest (xs ++ ["--dest"]) = (some "--dest", dest)
  | _, _, [], _ => rfl
  | out, dest, [a], h => by
    have ha : a ≠ "--dest" := h a (List.mem_cons_self a [])
    rw [show ([a] ++ ["--dest"]) = a :: "--dest" :: [] from rfl]
    rw [parseLoop, if_neg (by simpa using ha)]
    rfl
  | out, dest, a :: v :: rest, h => by
    have ha : a ≠ "--dest" := h a (List.mem_cons_self a (v :: rest))
    rw [List.cons_append, List.cons_append, parseLoop,
      if_neg (by simpa using ha)]
    rw [← List.cons_append]
    exact parseLoop_trailing_dest (some a) dest (v :: rest)
      (fun x hx => h x (List.mem_cons_of_mem a hx))

/-- C9: when `--dest` is the trailing argument with no value after it, the
parser does not report an error; the literal string `--dest` is consumed as
the positional output file name (and no destination is recorded); and when
several positional output-file arguments are supplied, the last one wins. -/
theorem cli_trailing_dest_and_last_positional (xs : List String)
    (h : ∀ x ∈ xs, x ≠ "--dest") (hne : xs ≠ []) :
    parseArgs (xs ++ ["--dest"]) = (some "--dest", none) ∧
    parseArgs xs = (some (xs.getLast hne), none) :=
  ⟨parseLoop_trailing_dest none none xs h,
   parseLoop_no_dest none none xs h hne⟩

/-- Witness for C9: after `out1.mp4 out2.mp4 --dest`, the output file is the
literal `--dest`; without the trailing flag the last positional wins. -/
theorem cli_trailing_dest_and_last_positional_witness :
    parseArgs (["out1.mp4", "out2.mp4"] ++ ["--dest"]) = (some "--dest", none) ∧
    parseArgs ["out1.mp4", "out2.mp4"] =
      (some (["out1.mp4", "out2.mp4"].getLast (by decide)), none) :=
  cli_trailing_dest_and_last_positional ["out1.mp4", "out2.mp4"]
    (by decide) (by decide)

/-! ## Claim C10 (manifest location) -/

theorem goodName_spec {n : String} (h : goodName n = true) :
    n.data ≠ [] ∧ n.data.contains '/' = false := by
  unfold goodName at h
  rcases Bool.and_eq_true_iff.mp h with ⟨h1, h2⟩
  constructor
  · intro hd
    rw [hd] at h1
    exact Bool.noConfusion h1
  · cases hx : n.data.contains '/'
    · rfl
    · rw [hx] at h2
      exact Bool.noConfusion h2

theorem namesOk2_top {es : List FSEntry} (h : namesOk2 es = true) :
    ∀ e ∈ es, goodName e.name = true := by
  intro e he
  unfold namesOk2 at h
  have := List.all_eq_true.mp h e he
  exact (Bool.and_eq_true_iff.mp this).1

theorem findSubdir_namesOk {nm : String} : ∀ {es ps : List FSEntry},
    namesOk2 es = true → findSubdir nm es = some ps →
    ∀ e ∈ ps, goodName e.name = true := by
  intro es
  induction es with
  | nil => intro ps _ hf; exact Option.noConfusion hf
  | cons e rest ih =>
    intro ps h hf
    have hall := List.all_eq_true.mp h
    have htail : namesOk2 rest = true := by
      unfold namesOk2
      exact List.all_eq_true.mpr fun x hx =>
        hall x (List.mem_cons_of_mem e hx)
    cases e with
    | file m => exact ih htail hf
    | dir m ds =>
      by_cases hm : (m == nm) = true
      · rw [findSubdir, if_pos hm, Option.some.injEq] at hf
        subst hf
        have hthis := hall (.dir m ds) (List.mem_cons_self _ _)
        have hds := (Bool.and_eq_true_iff.mp hthis).2
        exact fun x hx => List.all_eq_true.mp hds x hx
      · rw [findSubdir, if_neg hm] at hf
        exact ih htail hf

/-- C10: for every run whose scan finds at least one segment, the transient
manifest is created at the fixed name `concat_list.txt` inside the
directory containing the first segment in sorted order — which is always a
directory of the scanned source tree: the effective scan root, or its
`Parking` subfolder when a parking file sorts first. -/
theorem concat_manifest_location (env : StitchEnv) (dir0 : String)
    (entries : List FSEntry) (of dst : Option String) (s0 : Seg) (rest : List Seg)
    (hseg : find_video_files (abspath env.cwd dir0) entries = s0 :: rest)
    (heff1 : (effectiveRoot (abspath env.cwd dir0) entries).1.data ≠ [])
    (heff2 : endsWithSlash (effectiveRoot (abspath env.cwd dir0) entries).1 = false)
    (hnames : namesOk2 (effectiveRoot (abspath env.cwd dir0) entries).2 = true) :
    (stitch_videos env dir0 entries of dst).manifestPath =
      dirname s0.path ++ "/" ++ "concat_list.txt" ∧
    (dirname s0.path = (effectiveRoot (abspath env.cwd dir0) entries).1 ∨
     dirname s0.path =
       pjoin (effectiveRoot (abspath env.cwd dir0) entries).1 "Parking") := by
  obtain ⟨cwd, mw, lr, rf⟩ := env
  have hs0 : s0 ∈ find_video_files (abspath cwd dir0) entries := by
    rw [hseg]
    exact List.mem_cons_self _ _
  have hne2 : ¬ (endsWithSlash (effectiveRoot (abspath cwd dir0) entries).1 = true) :=
    fun hcon => by rw [heff2] at hcon; exact Bool.noConfusion hcon
  have hpj : pjoin (effectiveRoot (abspath cwd dir0) entries).1 "Parking" =
      (effectiveRoot (abspath cwd dir0) entries).1 ++ "/" ++ "Parking" := by
    unfold pjoin
    rw [if_neg (by decide), if_neg hne2]
  have hpdata : ((effectiveRoot (abspath cwd dir0) entries).1 ++ "/" ++ "Parking").data =
      (effectiveRoot (abspath cwd dir0) entries).1.data ++ '/' :: "Parking".data := by
    rw [String.data_append, String.data_append, List.append_assoc]
    rfl
  have hdir : dirname s0.path = (effectiveRoot (abspath cwd dir0) entries).1 ∨
      dirname s0.path = pjoin (effectiveRoot (abspath cwd dir0) entries).1 "Parking" := by
    rcases mem_find_video_files.mp hs0 with ⟨n, hn, _, _, rfl⟩ |
      ⟨n, ps, hps, hn, _, _, rfl⟩
    · left
      obtain ⟨hgne, hgns⟩ :=
        goodName_spec (namesOk2_top hnames (.file n) hn)
      exact dirname_pjoin _ n hgns heff1 (fun hcon => absurd hcon hne2)
    · right
      obtain ⟨hgne, hgns⟩ :=
        goodName_spec (findSubdir_namesOk hnames hps (.file n) hn)
      have hP1 : (pjoin (effectiveRoot (abspath cwd dir0) entries).1 "Parking").data ≠ [] := by
        rw [hpj, hpdata]
        simp
      have hP2 : endsWithSlash
          (pjoin (effectiveRoot (abspath cwd dir0) entries).1 "Parking") = false := by
        rw [hpj]
        unfold endsWithSlash
        rw [hpdata, List.getLast?_append,
          show (('/' :: "Parking".data).getLast?) = some 'g' from by decide]
        rfl
      exact dirname_pjoin _ n hgns hP1
        (fun hcon => by rw [hP2] at hcon; exact Bool.noConfusion hcon)
  have hdns : endsWithSlash (dirname s0.path) = false := by
    rcases hdir with hd | hd
    · rw [hd]
      exact heff2
    · rw [hd, hpj]
      unfold endsWithSlash
      rw [hpdata, List.getLast?_append,
        show (('/' :: "Parking".data).getLast?) = some 'g' from by decide]
      rfl
  refine ⟨?_, hdir⟩
  have hmp : (stitch_videos ⟨cwd, mw, lr, rf⟩ dir0 entries of dst).manifestPath =
      pjoin (dirname s0.path) "concat_list.txt" := by
    cases mw <;> cases lr <;> simp [stitch_videos, hseg]
  rw [hmp]
  unfold pjoin
  rw [if_neg (by decide),
    if_neg (fun hcon => by rw [hdns] at hcon; exact Bool.noConfusion hcon)]

/-- Witness for C10: a parking file that sorts first puts the manifest inside
the `Parking` subfolder. -/
theorem concat_manifest_location_witness :
    (stitch_videos ⟨"/c", .ok, .exits 0, false⟩ "/d"
        [.file "b.mp4", .dir "Parking" [.file "a.mp4"]] none none).manifestPath =
      dirname (⟨.parking, "/d/Parking/a.mp4"⟩ : Seg).path ++ "/" ++ "concat_list.txt" ∧
    (dirname (⟨.parking, "/d/Parking/a.mp4"⟩ : Seg).path =
      (effectiveRoot (abspath "/c" "/d")
        [.file "b.mp4", .dir "Parking" [.file "a.mp4"]]).1 ∨
     dirname (⟨.parking, "/d/Parking/a.mp4"⟩ : Seg).path =
      pjoin (effectiveRoot (abspath "/c" "/d")
        [.file "b.mp4", .dir "Parking" [.file "a.mp4"]]).1 "Parking") :=
  concat_manifest_location ⟨"/c", .ok, .exits 0, false⟩ "/d"
    [.file "b.mp4", .dir "Parking" [.file "a.mp4"]] none none
    ⟨.parking, "/d/Parking/a.mp4"⟩ [⟨.driving, "/d/b.mp4"⟩]
    (by decide) (by decide) (by decide) (by decide)

end Stitcher
